import Mathlib

/-!
Verification development for the libbmc identifier-extraction core.

Source files embedded here:
* `src/libbmc/doi.py` — the DOI grammar (`REGEX`), `is_valid`,
  `extract_from_text`, `to_url`, `to_canonical`.
* `src/libbmc/papers/identifiers.py` — `find_identifiers`, the streaming
  document-scan loop.

Strings are modelled as `List Char`.  Python's `re` character classes are
modelled on their ASCII fragments (`\w`, `\s`, `\S`); all concrete inputs in
the repository's doctests are ASCII.

The DOI pattern is
  `\b(10[.][0-9]\x7b4,\x7d(?:[.][0-9]+)*/(?:(?![\"&\'])\S)+)\b`  (IGNORECASE).
Backtracking collapses to a deterministic matcher for this pattern:
* `[0-9]\x7b4,\x7d` and every `[0-9]+` inside the star must take a maximal
  digit run — giving a digit back leaves a digit at the front of the rest of
  the input, where only `[.]` or `/` (non-digits) could continue the match;
* the star `(?:[.][0-9]+)*` must iterate whenever a `.` followed by a digit
  is ahead — declining to iterate leaves `.` where `/` is required;
* only the trailing `(?:(?![\"&\'])\S)+` interacts with the final `\b`: the
  engine takes the maximal run of permitted suffix characters and then gives
  characters back one at a time until the word-boundary assertion holds.
The matcher below implements exactly that residue of the backtracking
search.  Recursions are phrased with an explicit fuel argument (always
instantiated with the input length) so that every definition evaluates by
kernel reduction.
-/

namespace LibBMC

abbrev Str := List Char

/-- ASCII fragment of Python's regex word class `\w` ( `[A-Za-z0-9_]` ). -/
def isWordChar (c : Char) : Bool :=
  c.isAlpha || c.isDigit || c == '_'

/-- ASCII fragment of Python's whitespace class `\s` (also used by
`str.strip`). -/
def isPySpace (c : Char) : Bool :=
  c == ' ' || c == '\t' || c == '\n' || c == '\r' || c == '\x0b' || c == '\x0c'

/-- A character the DOI-suffix atom `(?:(?![\"&\'])\S)` accepts: any
non-whitespace character other than `\"`, `&`, `\'`. -/
def suffixLegal (c : Char) : Bool :=
  !isPySpace c && !(c == '"' || c == '&' || c == '\'')

/-- Whether the position just left/right of a boundary holds a word
character; `none` stands for the edge of the string (counts as non-word,
as in Python's `\b`). -/
def wordAt : Option Char → Bool
  | none => false
  | some c => isWordChar c

/-- Greedy `(?:[.][0-9]+)*`: repeatedly consume a `.` followed by a maximal
nonempty digit run.  Returns (consumed, rest).  `fuel` only bounds the
recursion; it is always called with `fuel ≥ length of the input`. -/
def starDotDigitsF : Nat → Str → Str × Str
  | 0, l => ([], l)
  | fuel + 1, l =>
    match l with
    | '.' :: d :: t =>
      if d.isDigit then
        let run := (d :: t).takeWhile Char.isDigit
        let rest := (d :: t).dropWhile Char.isDigit
        let p := starDotDigitsF fuel rest
        ('.' :: (run ++ p.1), p.2)
      else ([], l)
    | _ => ([], l)

def starDotDigits (l : Str) : Str × Str := starDotDigitsF l.length l

/-- The backtracking of the trailing `(?:(?![\"&\'])\S)+\b`: the maximal
run of suffix characters was split off as `run`; starting from the full run,
give characters back (from the right) until the word-boundary assertion
holds between the last kept character and the first character after it.
The first argument is `run.reverse`, so the recursion is structural. -/
def backoffRev : Str → Str → Option (Str × Str)
  | [], _ => none
  | c :: rs, rest =>
    if isWordChar c ≠ wordAt rest.head? then some ((c :: rs).reverse, rest)
    else backoffRev rs (c :: rest)

def suffixBackoff (run rest : Str) : Option (Str × Str) :=
  backoffRev run.reverse rest

/-- Matching of `(?:(?![\"&\'])\S)+\b` at the start of `r3`:
take the maximal run of permitted characters, then back off to a word
boundary. -/
def suffixRes (r3 : Str) : Option (Str × Str) :=
  suffixBackoff (r3.takeWhile suffixLegal) (r3.dropWhile suffixLegal)

/-- The part of the pattern after the literal `10.`:
`[0-9]\x7b4,\x7d(?:[.][0-9]+)*/(?:(?![\"&\'])\S)+\b`.
Returns `(group0, rest-of-input)` on success. -/
def doiTail (rest : Str) : Option (Str × Str) :=
  let d1 := rest.takeWhile Char.isDigit
  let r1 := rest.dropWhile Char.isDigit
  if 4 ≤ d1.length then
    match starDotDigits r1 with
    | (stars, r2) =>
      match r2 with
      | c :: r3 =>
        if c = '/' then
          (suffixRes r3).map
            (fun p => ('1' :: '0' :: '.' :: (d1 ++ stars ++ '/' :: p.1), p.2))
        else none
      | [] => none
  else none

/-- The whole pattern applied at the current position (the leading `\b` is
handled by the caller): literal `10.` then `doiTail`. -/
def matchCore : Str → Option (Str × Str)
  | c1 :: c2 :: c3 :: rest =>
    if c1 = '1' ∧ c2 = '0' ∧ c3 = '.' then doiTail rest
    else none
  | _ => none

/-- The pattern applied at a position whose preceding character is `prev`
(`none` at the start of the string): the leading `\b` requires a non-word
character (or the string edge) on the left, since any match starts with the
word character `1`. -/
def matchWithBoundary (prev : Option Char) (l : Str) : Option (Str × Str) :=
  if wordAt prev then none else matchCore l

/-- `REGEX.match(s)`: match anchored at position 0 only.  Returns
`(group0, rest)`. -/
def REGEX_match (s : Str) : Option (Str × Str) :=
  matchWithBoundary none s

/-- `doi.is_valid` from `src/libbmc/doi.py`:
`match = REGEX.match(doi); return (match is not None) and (match.group(0) == doi)`. -/
def is_valid (doi : Str) : Bool :=
  match REGEX_match doi with
  | none => false
  | some (g0, _) => g0 == doi

/-- `REGEX.findall(text)`: scan left to right, trying the pattern at every
position; after a match, continue right after it (matches do not overlap).
The pattern's single group spans the whole match, so `findall` returns the
matched substrings themselves.  `fuel` is always the input length. -/
def scanAllF : Nat → Option Char → Str → List Str
  | 0, _, _ => []
  | _ + 1, _, [] => []
  | fuel + 1, prev, c :: rest =>
    match matchWithBoundary prev (c :: rest) with
    | some (m, r) => m :: scanAllF fuel m.getLast? r
    | none => scanAllF fuel (some c) rest

def REGEX_findall (text : Str) : List Str :=
  scanAllF text.length none text

/-- Modelled from the spec: `libbmc.tools.remove_duplicates` (the module
`libbmc/tools.py` is not part of the sources given) — deduplicate a list
while preserving first-occurrence order. -/
def remove_duplicates : List Str → List Str
  | [] => []
  | x :: xs => x :: (remove_duplicates xs).filter (fun y => y ≠ x)

/-- `doi.extract_from_text`:
`return tools.remove_duplicates(REGEX.findall(text))`. -/
def extract_from_text (text : Str) : List Str :=
  remove_duplicates (REGEX_findall text)

/-- A Python value that is either a single string or a list of strings
(`to_url` / `to_canonical` accept both shapes). -/
inductive StrOrList where
  | scalar (s : Str)
  | list (l : List Str)
deriving DecidableEq

/-- `DX_URL = "http://dx.doi.org/..."` — the fixed base prepended by
`DX_URL.format(doi=doi)`. -/
def DX_BASE : Str := ("http://dx.doi.org/").toList

/-- `doi.to_url`: element-wise `DX_URL.format(doi=doi)` over a list, or a
single formatted URL for a single DOI. -/
def to_url : StrOrList → StrOrList
  | .list dois => .list (dois.map (fun doi => DX_BASE ++ doi))
  | .scalar doi => .scalar (DX_BASE ++ doi)

/-- Modelled from the spec: `libbmc.tools.map_or_apply` as used by
`to_canonical` (the module `libbmc/tools.py` is not part of the sources
given).  Per the spec, `to_canonical` recovers the first extracted
identifier from the string (resp. from each string of the list), keeps the
scalar/list shape, and returns `None` — never an empty sequence and never
an error — when nothing is extracted, including for malformed input. -/
def heads (f : Str → List Str) : List Str → Option (List Str)
  | [] => some []
  | x :: xs =>
    match (f x).head? with
    | none => none
    | some y =>
      match heads f xs with
      | none => none
      | some ys => some (y :: ys)

def map_or_apply (f : Str → List Str) : StrOrList → Option StrOrList
  | .scalar s => (f s).head?.map .scalar
  | .list l =>
    match heads f l with
    | none => none
    | some r => if r = [] then none else some (.list r)

/-- `doi.to_canonical`: `return tools.map_or_apply(extract_from_text, urls)`. -/
def to_canonical (urls : StrOrList) : Option StrOrList :=
  map_or_apply extract_from_text urls

/-! ### Basic facts about the character classes -/

theorem not_suffixLegal_chars {c : Char} (h : suffixLegal c = false) :
    isPySpace c = true ∨ c = '"' ∨ c = '&' ∨ c = '\'' := by
  unfold suffixLegal at h
  rcases Bool.and_eq_false_iff.mp h with h1 | h1
  · left
    simpa using h1
  · right
    have h2 : (c == '"' || c == '&' || c == '\'') = true := by
      cases hb : (c == '"' || c == '&' || c == '\'')
      · rw [hb] at h1
        exact absurd h1 (by decide)
      · rfl
    simp only [Bool.or_eq_true, beq_iff_eq] at h2
    tauto

theorem isPySpace_chars {c : Char} (h : isPySpace c = true) :
    c = ' ' ∨ c = '\t' ∨ c = '\n' ∨ c = '\r' ∨ c = '\x0b' ∨ c = '\x0c' := by
  unfold isPySpace at h
  simpa [or_assoc] using h

theorem word_of_not_suffixLegal {c : Char} (h : suffixLegal c = false) :
    isWordChar c = false := by
  rcases not_suffixLegal_chars h with h1 | h1 | h1 | h1
  · rcases isPySpace_chars h1 with h2 | h2 | h2 | h2 | h2 | h2 <;> subst h2 <;> decide
  all_goals subst h1; decide

theorem suffixLegal_of_word {c : Char} (h : isWordChar c = true) :
    suffixLegal c = true := by
  by_contra hc
  have := word_of_not_suffixLegal (Bool.eq_false_iff.mpr hc)
  rw [h] at this
  exact Bool.true_eq_false.mp this

theorem isPySpace_of_digit {c : Char} (h : c.isDigit = true) :
    isPySpace c = false := by
  cases hb : isPySpace c
  · rfl
  · rcases isPySpace_chars hb with h2 | h2 | h2 | h2 | h2 | h2 <;> subst h2 <;>
      exact absurd h (by decide)

/-! ### takeWhile / dropWhile over an assembled string -/

theorem takeWhile_append_of {p : Char → Bool} {d l : Str}
    (hd : ∀ c ∈ d, p c = true) (hl : ∀ c, l.head? = some c → p c = false) :
    (d ++ l).takeWhile p = d ∧ (d ++ l).dropWhile p = l := by
  induction d with
  | nil =>
    cases l with
    | nil => simp
    | cons c t =>
      have := hl c rfl
      simp [List.takeWhile_cons, List.dropWhile_cons, this]
  | cons a d ih =>
    have ha : p a = true := hd a (by simp)
    have ih2 := ih (fun c hc => hd c (by simp [hc]))
    simp [List.takeWhile_cons, List.dropWhile_cons, ha, ih2.1, ih2.2]

/-! ### The star segment `(?:[.][0-9]+)*` -/

/-- The strings the star segment `(?:[.][0-9]+)*` generates: a
concatenation of blocks, each a `.` followed by a nonempty digit run. -/
inductive StarBlocks : Str → Prop
  | nil : StarBlocks []
  | cons (d rest : Str) : d ≠ [] → (∀ c ∈ d, c.isDigit = true) →
      StarBlocks rest → StarBlocks ('.' :: (d ++ rest))

theorem StarBlocks.head_shape {s : Str} (h : StarBlocks s) :
    s = [] ∨ ∃ t, s = '.' :: t := by
  cases h with
  | nil => exact Or.inl rfl
  | cons d rest _ _ _ => exact Or.inr ⟨d ++ rest, rfl⟩

theorem StarBlocks.chars {s : Str} (h : StarBlocks s) :
    ∀ c ∈ s, c = '.' ∨ c.isDigit = true := by
  induction h with
  | nil => intro c hc; simp at hc
  | cons d rest hd hdig _ ih =>
    intro c hc
    rcases List.mem_cons.mp hc with h1 | h1
    · exact Or.inl h1
    · rcases List.mem_append.mp h1 with h2 | h2
      · exact Or.inr (hdig c h2)
      · exact ih c h2

theorem starDotDigitsF_append_eq (fuel : Nat) :
    ∀ l : Str, (starDotDigitsF fuel l).1 ++ (starDotDigitsF fuel l).2 = l := by
  induction fuel with
  | zero => intro l; rfl
  | succ fuel ih =>
    intro l
    match l with
    | [] => rfl
    | [c] => simp [starDotDigitsF]
    | c :: d :: t =>
      by_cases hc : c = '.'
      · subst hc
        by_cases hd : d.isDigit = true
        · have hrun : ((d :: t).takeWhile Char.isDigit) ++ ((d :: t).dropWhile Char.isDigit)
              = d :: t := List.takeWhile_append_dropWhile Char.isDigit (d :: t)
          have ihr := ih ((d :: t).dropWhile Char.isDigit)
          simp only [starDotDigitsF, hd, if_pos]
          simp only [List.cons_append, List.append_assoc, ihr, hrun]
        · have hd2 : d.isDigit = false := Bool.eq_false_iff.mpr hd
          simp [starDotDigitsF, hd2]
      · simp [starDotDigitsF, hc]

theorem starDotDigitsF_blocks (fuel : Nat) :
    ∀ l : Str, StarBlocks (starDotDigitsF fuel l).1 := by
  induction fuel with
  | zero => intro l; exact StarBlocks.nil
  | succ fuel ih =>
    intro l
    match l with
    | [] => exact StarBlocks.nil
    | [c] =>
      simp only [starDotDigitsF]
      exact StarBlocks.nil
    | c :: d :: t =>
      by_cases hc : c = '.'
      · subst hc
        by_cases hd : d.isDigit = true
        · simp only [starDotDigitsF, hd, if_pos]
          refine StarBlocks.cons _ _ ?_ ?_ (ih _)
          · simp [List.takeWhile_cons, hd]
          · intro x hx
            exact List.mem_takeWhile_imp hx
        · have hd2 : d.isDigit = false := Bool.eq_false_iff.mpr hd
          simp only [starDotDigitsF, hd2]
          simp
          exact StarBlocks.nil
      · simp only [starDotDigitsF]
        split
        · next d0 t0 heq =>
          rw [List.cons.injEq] at heq
          exact absurd heq.1 hc
        · exact StarBlocks.nil

theorem head_append_not_digit {stars l : Str} (hs : StarBlocks stars)
    (hl : l.head? = some '/') :
    ∀ c, (stars ++ l).head? = some c → c.isDigit = false := by
  intro c hc
  rcases hs.head_shape with h1 | ⟨t, h1⟩
  · subst h1
    simp only [List.nil_append] at hc
    rw [hc] at hl
    cases hl
    decide
  · subst h1
    simp only [List.cons_append, List.head?_cons, Option.some.injEq] at hc
    subst hc
    decide

theorem starDotDigitsF_on_blocks {stars l : Str} (hs : StarBlocks stars)
    (hl : l.head? = some '/') :
    ∀ fuel, (stars ++ l).length ≤ fuel → starDotDigitsF fuel (stars ++ l) = (stars, l) := by
  induction hs with
  | nil =>
    intro fuel hf
    cases l with
    | nil => cases hl
    | cons c t =>
      rw [List.head?_cons, Option.some.injEq] at hl
      subst hl
      simp only [List.nil_append]
      cases fuel with
      | zero => rfl
      | succ fuel => simp [starDotDigitsF]
  | cons d rest hd hdig hrest ih =>
    intro fuel hf
    obtain ⟨d0, dtl, hd0⟩ : ∃ d0 dtl, d = d0 :: dtl := by
      cases d with
      | nil => exact absurd rfl hd
      | cons a b => exact ⟨a, b, rfl⟩
    subst hd0
    have hd0dig : d0.isDigit = true := hdig d0 (by simp)
    cases fuel with
    | zero =>
      exfalso
      simp [List.length_cons] at hf
    | succ fuel =>
      have harr : ('.' :: ((d0 :: dtl) ++ rest)) ++ l
          = '.' :: d0 :: (dtl ++ (rest ++ l)) := by simp
      rw [harr]
      have htw := takeWhile_append_of (fun c hc => hdig c hc)
        (head_append_not_digit hrest hl)
      have htw1 : (d0 :: (dtl ++ (rest ++ l))).takeWhile Char.isDigit = d0 :: dtl := by
        simpa using htw.1
      have htw2 : (d0 :: (dtl ++ (rest ++ l))).dropWhile Char.isDigit = rest ++ l := by
        simpa using htw.2
      have hfuel : (rest ++ l).length ≤ fuel := by
        simp only [List.length_cons, List.length_append] at hf ⊢
        omega
      simp only [starDotDigitsF, hd0dig, if_pos, htw1, htw2, ih fuel hfuel]

/-! ### The suffix backoff `(?:(?![\"&\'])\S)+\b` -/

theorem backoffRev_append {rl rest suf r4 : Str}
    (h : backoffRev rl rest = some (suf, r4)) : suf ++ r4 = rl.reverse ++ rest := by
  induction rl generalizing rest with
  | nil => cases h
  | cons c rs ih =>
    rw [backoffRev] at h
    split at h
    · rw [Option.some.injEq, Prod.mk.injEq] at h
      rw [← h.1, ← h.2]
    · have := ih h
      rw [this]
      simp

theorem backoffRev_ne_nil {rl rest suf r4 : Str}
    (h : backoffRev rl rest = some (suf, r4)) : suf ≠ [] := by
  induction rl generalizing rest with
  | nil => cases h
  | cons c rs ih =>
    rw [backoffRev] at h
    split at h
    · rw [Option.some.injEq, Prod.mk.injEq] at h
      rw [← h.1]
      simp
    · exact ih h

theorem backoffRev_mem {rl rest suf r4 : Str}
    (h : backoffRev rl rest = some (suf, r4)) : ∀ x ∈ suf, x ∈ rl := by
  induction rl generalizing rest with
  | nil => cases h
  | cons c rs ih =>
    rw [backoffRev] at h
    split at h
    · rw [Option.some.injEq, Prod.mk.injEq] at h
      intro x hx
      rw [← h.1] at hx
      exact List.mem_reverse.mp hx
    · intro x hx
      exact List.mem_cons_of_mem c (ih h x hx)

theorem backoffRev_last_word {rl rest suf r4 : Str}
    (h : backoffRev rl rest = some (suf, r4)) (hw : wordAt rest.head? = false) :
    ∃ w, suf.getLast? = some w ∧ isWordChar w = true := by
  induction rl generalizing rest with
  | nil => cases h
  | cons c rs ih =>
    rw [backoffRev] at h
    split at h
    · next hb =>
      rw [Option.some.injEq, Prod.mk.injEq] at h
      refine ⟨c, ?_, ?_⟩
      · rw [← h.1]
        simp
      · rw [hw] at hb
        cases hcw : isWordChar c
        · rw [hcw] at hb
          exact absurd rfl hb
        · rfl
    · next hb =>
      rw [hw] at hb
      have hcw : isWordChar c = false := by
        cases hcw : isWordChar c
        · rfl
        · rw [hcw] at hb
          exact absurd (by tauto) hb
      refine ih h ?_
      simpa [wordAt] using hcw

theorem backoffRev_first_try {suf t0 : Str} {w : Char}
    (hlast : suf.getLast? = some w) (hword : isWordChar w = true)
    (ht : wordAt t0.head? = false) :
    backoffRev suf.reverse t0 = some (suf, t0) := by
  have hrev : suf.reverse.head? = some w := by
    rw [List.head?_reverse]
    exact hlast
  obtain ⟨tl, htl⟩ : ∃ tl, suf.reverse = w :: tl := by
    cases hrc : suf.reverse with
    | nil => rw [hrc] at hrev; cases hrev
    | cons a b =>
      rw [hrc] at hrev
      rw [List.head?_cons, Option.some.injEq] at hrev
      exact ⟨b, by rw [hrev]⟩
  rw [htl, backoffRev]
  rw [hword, ht]
  simp only [ne_eq, Bool.true_eq_false, not_false_eq_true, if_pos]
  have : (w :: tl).reverse = suf := by
    rw [← htl, List.reverse_reverse]
  rw [this]

theorem dropWhile_head_false {p : Char → Bool} {l : Str} {c : Char}
    (h : (l.dropWhile p).head? = some c) : p c = false := by
  have := List.head?_dropWhile_not p l
  rw [h] at this
  exact this

theorem wordAt_after_dropLegal {l : Str} :
    wordAt ((l.dropWhile suffixLegal).head?) = false := by
  cases hh : (l.dropWhile suffixLegal).head? with
  | none => rfl
  | some c =>
    have h1 : suffixLegal c = false := dropWhile_head_false hh
    simp only [wordAt]
    exact word_of_not_suffixLegal h1

/-! ### Soundness and re-assembly of the whole matcher -/

theorem matchCore_sound {l m r : Str} (h : matchCore l = some (m, r)) :
    ∃ d1 stars suf,
      m = '1' :: '0' :: '.' :: (d1 ++ stars ++ '/' :: suf) ∧
      m ++ r = l ∧
      4 ≤ d1.length ∧ (∀ c ∈ d1, c.isDigit = true) ∧
      StarBlocks stars ∧
      suf ≠ [] ∧ (∀ c ∈ suf, suffixLegal c = true) ∧
      ∃ w, suf.getLast? = some w ∧ isWordChar w = true := by
  match l with
  | [] => cases h
  | [c1] => cases h
  | [c1, c2] => cases h
  | c1 :: c2 :: c3 :: rest =>
    simp only [matchCore] at h
    split at h
    case isFalse => cases h
    case isTrue hcond =>
      obtain ⟨h1, h2, h3⟩ := hcond
      subst h1; subst h2; subst h3
      rw [doiTail] at h
      simp only at h
      split at h
      case isFalse => cases h
      case isTrue hd4 =>
        rcases hsd : starDotDigits (rest.dropWhile Char.isDigit) with ⟨stars, r2⟩
        rw [hsd] at h
        cases r2 with
        | nil => cases h
        | cons c r3 =>
          simp only at h
          split at h
          case isFalse => cases h
          case isTrue hslash =>
            subst hslash
            rw [Option.map_eq_some'] at h
            obtain ⟨⟨suf, r4⟩, hsr, heq⟩ := h
            rw [Prod.mk.injEq] at heq
            obtain ⟨hm, hr⟩ := heq
            rw [suffixRes, suffixBackoff] at hsr
            have hback := backoffRev_append hsr
            rw [List.reverse_reverse, List.takeWhile_append_dropWhile] at hback
            refine ⟨rest.takeWhile Char.isDigit, stars, suf, hm.symm, ?_, hd4,
              (fun c hc => List.mem_takeWhile_imp hc),
              ?_, backoffRev_ne_nil hsr, ?_, ?_⟩
            · rw [← hm, ← hr]
              have hstars : stars ++ ('/' :: r3) = rest.dropWhile Char.isDigit := by
                have := starDotDigitsF_append_eq
                  ((rest.dropWhile Char.isDigit).length) (rest.dropWhile Char.isDigit)
                rw [starDotDigits] at hsd
                rw [hsd] at this
                exact this
              have hrest : (rest.takeWhile Char.isDigit) ++ (rest.dropWhile Char.isDigit)
                  = rest := List.takeWhile_append_dropWhile Char.isDigit rest
              simp only [List.cons_append, List.cons.injEq, true_and]
              conv_rhs => rw [← hrest, ← hstars]
              rw [← hback]
              simp [List.append_assoc]
            · have := starDotDigitsF_blocks
                ((rest.dropWhile Char.isDigit).length) (rest.dropWhile Char.isDigit)
              rw [starDotDigits] at hsd
              rw [hsd] at this
              exact this
            · intro c hc
              have hmem := backoffRev_mem hsr c hc
              rw [List.mem_reverse] at hmem
              exact List.mem_takeWhile_imp hmem
            · exact backoffRev_last_word hsr wordAt_after_dropLegal

theorem matchCore_append {l m r : Str} (h : matchCore l = some (m, r)) :
    m ++ r = l := by
  obtain ⟨d1, stars, suf, hm, happ, _⟩ := matchCore_sound h
  exact happ

theorem matchCore_m_ne_nil {l m r : Str} (h : matchCore l = some (m, r)) :
    m ≠ [] := by
  obtain ⟨d1, stars, suf, hm, _⟩ := matchCore_sound h
  rw [hm]
  simp

theorem matchCore_assemble {d1 stars suf t : Str} {w : Char}
    (hd4 : 4 ≤ d1.length) (hdig : ∀ c ∈ d1, c.isDigit = true)
    (hs : StarBlocks stars) (hsuf : ∀ c ∈ suf, suffixLegal c = true)
    (hlast : suf.getLast? = some w) (hword : isWordChar w = true)
    (ht : ∀ c, t.head? = some c → suffixLegal c = false) :
    matchCore (('1' :: '0' :: '.' :: (d1 ++ stars ++ '/' :: suf)) ++ t)
      = some ('1' :: '0' :: '.' :: (d1 ++ stars ++ '/' :: suf), t) := by
  have harr : (('1' :: '0' :: '.' :: (d1 ++ stars ++ '/' :: suf)) ++ t)
      = '1' :: '0' :: '.' :: (d1 ++ (stars ++ '/' :: (suf ++ t))) := by
    simp
  rw [harr]
  have hslashhead : (('/' : Char) :: (suf ++ t)).head? = some '/' := rfl
  have htw := takeWhile_append_of hdig (head_append_not_digit hs hslashhead)
  have hsts := starDotDigitsF_on_blocks hs hslashhead
    ((stars ++ '/' :: (suf ++ t)).length) (le_refl _)
  have htsuf := takeWhile_append_of hsuf (fun c hc => ht c hc)
  have hwt : wordAt t.head? = false := by
    cases hh : t.head? with
    | none => rfl
    | some c =>
      simp only [wordAt]
      exact word_of_not_suffixLegal (ht c hh)
  have hbo : backoffRev suf.reverse t = some (suf, t) :=
    backoffRev_first_try hlast hword hwt
  simp only [matchCore, true_and, if_true]
  rw [doiTail]
  simp only [htw.1, htw.2]
  rw [if_pos hd4]
  rw [starDotDigits, hsts]
  simp only [true_and, if_true]
  rw [suffixRes, htsuf.1, htsuf.2, suffixBackoff, hbo]
  simp

theorem is_valid_matchCore {s : Str} (h : is_valid s = true) :
    matchCore s = some (s, []) := by
  rw [is_valid, REGEX_match, matchWithBoundary] at h
  simp only [wordAt, Bool.false_eq_true, if_false] at h
  cases hm : matchCore s with
  | none =>
    rw [hm] at h
    cases h
  | some p =>
    rcases p with ⟨g0, r⟩
    rw [hm] at h
    have hg : g0 = s := by
      have := h
      simpa using eq_of_beq this
    subst hg
    have happ := matchCore_append hm
    have hr : r = [] := by
      have h2 : g0 ++ r = g0 ++ [] := by
        rw [happ]
        simp
      exact (List.append_cancel_left h2)
    rw [hr]

theorem matchCore_revalidate {l m r : Str} (h : matchCore l = some (m, r)) :
    matchCore m = some (m, []) := by
  obtain ⟨d1, stars, suf, hm, happ, hd4, hdig, hs, hne, hsuf, w, hlast, hword⟩ :=
    matchCore_sound h
  have hT : ∀ c, (([] : Str)).head? = some c → suffixLegal c = false :=
    fun c hc => by cases hc
  have h2 := matchCore_assemble hd4 hdig hs hsuf hlast hword hT
  rw [List.append_nil] at h2
  rw [← hm] at h2
  exact h2

theorem matchCore_to_is_valid {s : Str} (h : matchCore s = some (s, [])) :
    is_valid s = true := by
  rw [is_valid, REGEX_match, matchWithBoundary]
  simp only [wordAt, Bool.false_eq_true, if_false, h]
  simp

/-- The language of the whole pattern anchored at both ends of `s`: the
literal `10.`, a digit run of length at least 4, star blocks, a `/`, a
nonempty run of permitted suffix characters, and the two `\b` assertions
(the one on the left is automatic, since `1` is a word character and the
string edge is not; the one on the right requires the final character to
be a word character). -/
def FullMatch (s : Str) : Prop :=
  ∃ d1 stars suf,
    s = '1' :: '0' :: '.' :: (d1 ++ stars ++ '/' :: suf) ∧
    4 ≤ d1.length ∧ (∀ c ∈ d1, c.isDigit = true) ∧
    StarBlocks stars ∧
    suf ≠ [] ∧ (∀ c ∈ suf, suffixLegal c = true) ∧
    ∃ w, suf.getLast? = some w ∧ isWordChar w = true

theorem is_valid_of_FullMatch {s : Str} (h : FullMatch s) : is_valid s = true := by
  obtain ⟨d1, stars, suf, hm, hd4, hdig, hs, hne, hsuf, w, hlast, hword⟩ := h
  have hT : ∀ c, (([] : Str)).head? = some c → suffixLegal c = false :=
    fun c hc => by cases hc
  have h2 := matchCore_assemble hd4 hdig hs hsuf hlast hword hT
  rw [List.append_nil] at h2
  rw [← hm] at h2
  exact matchCore_to_is_valid h2

theorem FullMatch_of_is_valid {s : Str} (h : is_valid s = true) : FullMatch s := by
  have hm := is_valid_matchCore h
  obtain ⟨d1, stars, suf, hshape, happ, hd4, hdig, hs, hne, hsuf, hw⟩ :=
    matchCore_sound hm
  exact ⟨d1, stars, suf, hshape, hd4, hdig, hs, hne, hsuf, hw⟩

/-! ### Scanning (`findall`) lemmas -/

theorem matchWithBoundary_some {prev : Option Char} {l m r : Str}
    (h : matchWithBoundary prev l = some (m, r)) : matchCore l = some (m, r) := by
  rw [matchWithBoundary] at h
  split at h
  · cases h
  · exact h

theorem matchCore_cons_not_one {c : Char} {l : Str} (hc : c ≠ '1') :
    matchCore (c :: l) = none := by
  match l with
  | [] => rfl
  | [a] => rfl
  | a :: b :: t =>
    simp only [matchCore]
    rw [if_neg]
    intro hand
    exact hc hand.1

theorem scanAllF_nil (fuel : Nat) (prev : Option Char) :
    scanAllF fuel prev [] = [] := by
  cases fuel <;> rfl

theorem scanAllF_skip {prev : Option Char} {c : Char} {rest : Str} (fuel : Nat)
    (h : matchWithBoundary prev (c :: rest) = none) :
    scanAllF (fuel + 1) prev (c :: rest) = scanAllF fuel (some c) rest := by
  simp only [scanAllF, h]

theorem scanAllF_hit {prev : Option Char} {c : Char} {rest m r : Str} (fuel : Nat)
    (h : matchWithBoundary prev (c :: rest) = some (m, r)) :
    scanAllF (fuel + 1) prev (c :: rest) = m :: scanAllF fuel m.getLast? r := by
  simp only [scanAllF, h]

theorem length_of_matchWithBoundary {prev : Option Char} {c : Char} {rest m r : Str}
    (h : matchWithBoundary prev (c :: rest) = some (m, r)) :
    r.length ≤ rest.length := by
  have hc := matchWithBoundary_some h
  have happ := matchCore_append hc
  have hne := matchCore_m_ne_nil hc
  have hlen : m.length + r.length = rest.length + 1 := by
    have := congrArg List.length happ
    simpa using this
  have hm1 : 1 ≤ m.length := by
    cases m with
    | nil => exact absurd rfl hne
    | cons a b => simp
  omega

theorem scanAllF_fuel_aux : ∀ (n : Nat) (l : Str), l.length ≤ n →
    ∀ (f g : Nat) (prev : Option Char), l.length ≤ f → l.length ≤ g →
    scanAllF f prev l = scanAllF g prev l := by
  intro n
  induction n with
  | zero =>
    intro l hl f g prev hf hg
    have hnil : l = [] := List.length_eq_zero.mp (Nat.le_zero.mp hl)
    subst hnil
    rw [scanAllF_nil, scanAllF_nil]
  | succ n ih =>
    intro l hl f g prev hf hg
    cases l with
    | nil => rw [scanAllF_nil, scanAllF_nil]
    | cons c rest =>
      cases f with
      | zero => simp at hf
      | succ f =>
        cases g with
        | zero => simp at hg
        | succ g =>
          cases hm : matchWithBoundary prev (c :: rest) with
          | none =>
            rw [scanAllF_skip f hm, scanAllF_skip g hm]
            have hrest : rest.length ≤ n := by simp at hl; omega
            exact ih rest hrest f g (some c) (by simp at hf; omega)
              (by simp at hg; omega)
          | some p =>
            rcases p with ⟨m, r⟩
            rw [scanAllF_hit f hm, scanAllF_hit g hm]
            have hr := length_of_matchWithBoundary hm
            have h1 : r.length ≤ n := by simp at hl; omega
            rw [ih r h1 f g m.getLast? (by simp at hf; omega)
              (by simp at hg; omega)]

theorem scanAllF_fuel {l : Str} {f g : Nat} {prev : Option Char}
    (hf : l.length ≤ f) (hg : l.length ≤ g) :
    scanAllF f prev l = scanAllF g prev l :=
  scanAllF_fuel_aux l.length l (le_refl _) f g prev hf hg

theorem scanAllF_valid : ∀ (fuel : Nat) (prev : Option Char) (l m : Str),
    m ∈ scanAllF fuel prev l → matchCore m = some (m, []) := by
  intro fuel
  induction fuel with
  | zero =>
    intro prev l m hm
    simp only [scanAllF] at hm
    cases hm
  | succ fuel ih =>
    intro prev l m hm
    cases l with
    | nil => rw [scanAllF_nil] at hm; cases hm
    | cons c rest =>
      cases hmb : matchWithBoundary prev (c :: rest) with
      | none =>
        rw [scanAllF_skip fuel hmb] at hm
        exact ih (some c) rest m hm
      | some p =>
        rcases p with ⟨m0, r⟩
        rw [scanAllF_hit fuel hmb] at hm
        rcases List.mem_cons.mp hm with h1 | h1
        · subst h1
          exact matchCore_revalidate (matchWithBoundary_some hmb)
        · exact ih m0.getLast? r m h1

theorem scanAllF_isInfix : ∀ (fuel : Nat) (prev : Option Char) (l m : Str),
    m ∈ scanAllF fuel prev l → m <:+: l := by
  intro fuel
  induction fuel with
  | zero =>
    intro prev l m hm
    simp only [scanAllF] at hm
    cases hm
  | succ fuel ih =>
    intro prev l m hm
    cases l with
    | nil => rw [scanAllF_nil] at hm; cases hm
    | cons c rest =>
      cases hmb : matchWithBoundary prev (c :: rest) with
      | none =>
        rw [scanAllF_skip fuel hmb] at hm
        obtain ⟨s, t, hst⟩ := ih (some c) rest m hm
        exact ⟨c :: s, t, by simp [← hst]⟩
      | some p =>
        rcases p with ⟨m0, r⟩
        rw [scanAllF_hit fuel hmb] at hm
        have happ := matchCore_append (matchWithBoundary_some hmb)
        rcases List.mem_cons.mp hm with h1 | h1
        · subst h1
          exact ⟨[], r, by simp [happ]⟩
        · obtain ⟨s, t, hst⟩ := ih m0.getLast? r m h1
          exact ⟨m0 ++ s, t, by rw [← happ, ← hst]; simp⟩

theorem matchCore_space_free {l m r : Str} (h : matchCore l = some (m, r)) :
    ' ' ∉ m := by
  obtain ⟨d1, stars, suf, hm, _, _, hdig, hs, _, hsuf, _⟩ := matchCore_sound h
  rw [hm]
  intro hmem
  simp only [List.mem_cons, List.mem_append] at hmem
  rcases hmem with h1 | h1 | h1 | h1
  · cases h1
  · cases h1
  · cases h1
  · rcases h1 with (h2 | h2) | h2
    · have := hdig ' ' h2
      exact absurd this (by decide)
    · rcases hs.chars ' ' h2 with h3 | h3
      · cases h3
      · exact absurd h3 (by decide)
    · rcases h2 with h3 | h3
      · cases h3
      · have := hsuf ' ' h3
        exact absurd this (by decide)

/-! ### Deduplication -/

theorem remove_duplicates_mem : ∀ (l : List Str) (x : Str),
    x ∈ remove_duplicates l ↔ x ∈ l := by
  intro l
  induction l with
  | nil => intro x; rfl
  | cons a xs ih =>
    intro x
    simp only [remove_duplicates, List.mem_cons, List.mem_filter, ih,
      decide_eq_true_eq, ne_eq]
    by_cases hxa : x = a
    · simp [hxa]
    · simp [hxa]

theorem remove_duplicates_nodup : ∀ l : List Str, (remove_duplicates l).Nodup := by
  intro l
  induction l with
  | nil => exact List.nodup_nil
  | cons a xs ih =>
    rw [remove_duplicates]
    refine List.Nodup.cons ?_ (List.Nodup.filter _ ih)
    intro hmem
    have := (List.mem_filter.mp hmem).2
    simp at this

theorem indexOf_cons_self_str (a : Str) (l : List Str) : (a :: l).indexOf a = 0 := by
  simp [List.indexOf, List.findIdx_cons]

theorem indexOf_cons_ne_str {a b : Str} (l : List Str) (h : b ≠ a) :
    (b :: l).indexOf a = (l.indexOf a) + 1 := by
  have hb : (b == a) = false := beq_eq_false_iff_ne.mpr h
  simp [List.indexOf, List.findIdx_cons, hb]

theorem remove_duplicates_pairwise : ∀ l : List Str,
    (remove_duplicates l).Pairwise (fun a b => l.indexOf a < l.indexOf b) := by
  intro l
  induction l with
  | nil => exact List.Pairwise.nil
  | cons x xs ih =>
    rw [remove_duplicates]
    constructor
    · intro b hb
      have hbx : b ≠ x := by
        have := (List.mem_filter.mp hb).2
        simpa using this
      rw [indexOf_cons_self_str]
      rw [indexOf_cons_ne_str _ (fun he => hbx he.symm)]
      exact Nat.succ_pos _
    · have hpw : ((remove_duplicates xs).filter (fun y => y ≠ x)).Pairwise
          (fun a b => xs.indexOf a < xs.indexOf b) :=
        List.Pairwise.sublist (List.filter_sublist _) ih
      refine hpw.imp_of_mem ?_
      intro a b ha hb hab
      have hax : a ≠ x := by
        have := (List.mem_filter.mp ha).2
        simpa using this
      have hbx : b ≠ x := by
        have := (List.mem_filter.mp hb).2
        simpa using this
      rw [indexOf_cons_ne_str _ (fun he => hax he.symm)]
      rw [indexOf_cons_ne_str _ (fun he => hbx he.symm)]
      exact Nat.succ_lt_succ hab

/-! ### Scanning an assembled URL -/

theorem matchWithBoundary_none_of {prev : Option Char} {l : Str}
    (h : matchCore l = none) : matchWithBoundary prev l = none := by
  rw [matchWithBoundary]
  split
  · rfl
  · exact h

/-- The character before the position the scan has reached, after having
skipped a whole segment. -/
def lastOption (seg : Str) (prev : Option Char) : Option Char :=
  match seg.getLast? with
  | some c => some c
  | none => prev

theorem lastOption_cons (c : Char) (s : Str) (prev : Option Char) :
    lastOption (c :: s) prev = lastOption s (some c) := by
  cases s with
  | nil => rfl
  | cons a t =>
    cases hg : (a :: t).getLast? with
    | none => simp at hg
    | some x => rw [lastOption, lastOption, List.getLast?_cons_cons, hg]

theorem scanAllF_seg : ∀ (seg : Str) (prev : Option Char) (l : Str),
    (∀ c ∈ seg, c ≠ '1') →
    scanAllF (seg ++ l).length prev (seg ++ l)
      = scanAllF l.length (lastOption seg prev) l := by
  intro seg
  induction seg with
  | nil =>
    intro prev l h1
    rw [lastOption]
    simp
  | cons c seg ih =>
    intro prev l h1
    have hmb : matchWithBoundary prev ((c :: seg) ++ l) = none :=
      matchWithBoundary_none_of (matchCore_cons_not_one (h1 c (by simp)))
    have hlen : ((c :: seg) ++ l).length = (seg ++ l).length + 1 := by simp
    rw [lastOption_cons]
    rw [hlen]
    rw [List.cons_append]
    rw [scanAllF_skip _ (by rw [← List.cons_append]; exact hmb)]
    exact ih (some c) l (fun x hx => h1 x (by simp [hx]))

theorem REGEX_findall_url {d : Str} (h : is_valid d = true) :
    REGEX_findall (DX_BASE ++ d) = [d] := by
  have hbase : ∀ c ∈ DX_BASE, c ≠ '1' := by decide
  have hlast : lastOption DX_BASE none = some '/' := by rfl
  rw [REGEX_findall, scanAllF_seg DX_BASE none d hbase, hlast]
  have hmc := is_valid_matchCore h
  obtain ⟨d1, stars, suf, hshape, -⟩ := matchCore_sound hmc
  have hmb : matchWithBoundary (some '/') d = some (d, []) := by
    rw [matchWithBoundary]
    rw [if_neg ?_]
    · exact hmc
    · simp [wordAt, isWordChar]
  match hd : d, hshape with
  | c :: rest, _ =>
    rw [show (c :: rest).length = rest.length + 1 from by simp]
    rw [scanAllF_hit rest.length hmb]
    rw [scanAllF_nil]

theorem extract_from_text_url {d : Str} (h : is_valid d = true) :
    extract_from_text (DX_BASE ++ d) = [d] := by
  rw [extract_from_text, REGEX_findall_url h]
  simp [remove_duplicates]

/-- Claim C1: for every string `s`, `doi.is_valid s` returns true iff the
DOI grammar matches `s` anchored at both ends: the grammar generates the
whole of `s` (with both word-boundary assertions holding at the string
edges).  A string that merely contains a grammar match as a proper
substring is rejected. -/
theorem C1_is_valid_iff_FullMatch (s : Str) : is_valid s = true ↔ FullMatch s :=
  ⟨FullMatch_of_is_valid, is_valid_of_FullMatch⟩

/-- Claim C3, counterexample: appending the character `b` to the valid DOI
`10.1234/a` yields `10.1234/ab`, which is again valid — so a string
obtained from a valid DOI by adding one character at the end is not always
invalid, contrary to the claim. -/
theorem C3_counterexample :
    is_valid (("10.1234/a").toList) = true ∧
    (("10.1234/a").toList) ++ ['b'] = ("10.1234/ab").toList ∧
    is_valid (("10.1234/ab").toList) = true := by
  decide

/-- Claim C3, amended: for every valid DOI `s`, adding one character at the
front always yields an invalid string; adding one character at the end
need not invalidate (see the counterexample), but appending a space does. -/
theorem C3_amended_extend (s : Str) (c : Char) (h : is_valid s = true) :
    is_valid (c :: s) = false ∧ is_valid (s ++ [' ']) = false := by
  have hmc := is_valid_matchCore h
  obtain ⟨d1, stars, suf, hshape, happ, hd4, hdig, hs, hne, hsuf, w, hlast, hword⟩ :=
    matchCore_sound hmc
  constructor
  · have hnone : matchCore (c :: s) = none := by
      rw [hshape]
      simp only [matchCore]
      rw [if_neg]
      rintro ⟨-, h2, -⟩
      exact absurd h2 (by decide)
    rw [is_valid, REGEX_match, matchWithBoundary]
    simp [wordAt, hnone]
  · have hT : ∀ c0, (([' '] : Str)).head? = some c0 → suffixLegal c0 = false := by
      intro c0 hc0
      have hc : ' ' = c0 := by simpa using hc0
      rw [← hc]
      decide
    have h2 := matchCore_assemble hd4 hdig hs hsuf hlast hword hT
    rw [← hshape] at h2
    have hne2 : s ≠ s ++ [' '] := by
      intro he
      have := congrArg List.length he
      simp at this
    rw [is_valid, REGEX_match, matchWithBoundary]
    simp only [wordAt, Bool.false_eq_true, if_false, h2]
    exact beq_eq_false_iff_ne.mpr hne2

/-- Witness for C3's amended theorem at a concrete input. -/
theorem C3_amended_witness :
    is_valid (("10.1234/a").toList) = true ∧
    (is_valid ('x' :: ("10.1234/a").toList) = false ∧
      is_valid (("10.1234/a").toList ++ [' ']) = false) :=
  ⟨by decide, C3_amended_extend (("10.1234/a").toList) 'x' (by decide)⟩

/-- Claim C4: `extract_from_text` returns a sequence without duplicates,
ordered by first occurrence in the scan of the text (each element's index
in the raw `findall` list is increasing), and running it twice on the same
text yields the same sequence. -/
theorem C4_extract_nodup_order (t : Str) :
    (extract_from_text t).Nodup ∧
    (extract_from_text t).Pairwise
      (fun a b => (REGEX_findall t).indexOf a < (REGEX_findall t).indexOf b) ∧
    extract_from_text t = extract_from_text t :=
  ⟨remove_duplicates_nodup _, remove_duplicates_pairwise _, rfl⟩

/-- Claim C5: for every canonical (valid) DOI `d`,
`to_canonical (to_url [d]) = [d]`, and in scalar form
`to_canonical (to_url d) = d`. -/
theorem C5_roundtrip (d : Str) (h : is_valid d = true) :
    to_canonical (to_url (.list [d])) = some (.list [d]) ∧
    to_canonical (to_url (.scalar d)) = some (.scalar d) := by
  have he := extract_from_text_url h
  constructor
  · rw [to_url]
    simp only [List.map]
    rw [to_canonical, map_or_apply]
    simp [heads, he]
  · rw [to_url, to_canonical, map_or_apply]
    simp [he]

/-- Witness for C5 at a concrete DOI. -/
theorem C5_roundtrip_witness :
    is_valid (("10.1209/0295-5075/111/40005").toList) = true ∧
    (to_canonical (to_url (.list [("10.1209/0295-5075/111/40005").toList]))
        = some (.list [("10.1209/0295-5075/111/40005").toList]) ∧
      to_canonical (to_url (.scalar (("10.1209/0295-5075/111/40005").toList)))
        = some (.scalar (("10.1209/0295-5075/111/40005").toList))) :=
  ⟨by decide, C5_roundtrip (("10.1209/0295-5075/111/40005").toList) (by decide)⟩

/-- Claim C7: every string in the sequence returned by
`extract_from_text` fully matches the DOI grammar from start to end, i.e.
`is_valid` holds of each extracted element. -/
theorem C7_extracted_valid (t m : Str) (hm : m ∈ extract_from_text t) :
    is_valid m = true :=
  matchCore_to_is_valid
    (scanAllF_valid t.length none t m ((remove_duplicates_mem _ _).mp hm))

/-- Witness for C7 at a concrete text. -/
theorem C7_extracted_valid_witness :
    (("10.1234/ab").toList ∈ extract_from_text (("see 10.1234/ab here").toList)) ∧
    is_valid (("10.1234/ab").toList) = true :=
  ⟨by decide, C7_extracted_valid (("see 10.1234/ab here").toList)
    (("10.1234/ab").toList) (by decide)⟩

/-- Claim C8: `to_canonical` returns `None` — not an empty sequence and not
an error — whenever extraction recovers nothing from its input, for both
the scalar and the list form. -/
theorem C8_to_canonical_none (s : Str) (l : List Str)
    (hs : extract_from_text s = []) (hl : ∀ x ∈ l, extract_from_text x = []) :
    to_canonical (.scalar s) = none ∧ to_canonical (.list l) = none := by
  constructor
  · rw [to_canonical, map_or_apply, hs]
    rfl
  · cases l with
    | nil => rfl
    | cons x xs =>
      have hx := hl x (by simp)
      rw [to_canonical, map_or_apply]
      simp [heads, hx]

/-- Witness for C8 at a concrete malformed input. -/
theorem C8_to_canonical_none_witness :
    extract_from_text (("aaaa").toList) = [] ∧
    (∀ x ∈ [("aaaa").toList], extract_from_text x = []) ∧
    (to_canonical (.scalar (("aaaa").toList)) = none ∧
      to_canonical (.list [("aaaa").toList]) = none) :=
  ⟨by decide, by decide,
    C8_to_canonical_none (("aaaa").toList) [("aaaa").toList] (by decide) (by decide)⟩

/-! ### The document scanner (`src/libbmc/papers/identifiers.py`) -/

/-- Exceptions the Python function can raise: `subprocess.Popen` raises
`FileNotFoundError` when the conversion executable is missing, and
`bytes.decode("utf-8")` raises `UnicodeDecodeError` on undecodable
output. -/
inductive PyErr where
  | fileNotFound
  | unicodeDecodeError
deriving DecidableEq

/-- The registered identifier schemes.  Of the modules appended to
`__valid_identifiers__`, only `doi` is among the given sources. -/
inductive Scheme where
  | doi
deriving DecidableEq

/-- One line of converter output as the model sees it: `some s` when the
raw bytes decode (UTF-8) to `s`, `none` when `decode` would raise.  The
conversion executables are external collaborators, so their byte output is
abstracted to its decoded content. -/
abbrev OutLine := Option Str

/-- The behaviour of one spawned conversion process: whether `Popen`
succeeds (the executable exists), and the successive results of
`readlines()`: the lines newly available at each poll iteration of the
loop (`readlines` consumes what it returns). -/
structure ProcBehavior where
  spawnOk : Bool
  batches : List (List OutLine)

instance exceptDecEq {ε α : Type} [DecidableEq ε] [DecidableEq α] :
    DecidableEq (Except ε α) := fun x y =>
  match x, y with
  | .error a, .error b =>
    if h : a = b then isTrue (by rw [h]) else
      isFalse (by intro he; cases he; exact h rfl)
  | .ok a, .ok b =>
    if h : a = b then isTrue (by rw [h]) else
      isFalse (by intro he; cases he; exact h rfl)
  | .error a, .ok b => isFalse (by intro he; cases he)
  | .ok a, .error b => isFalse (by intro he; cases he)

/-- Python `str.strip()` on ASCII whitespace. -/
def pyStrip (s : Str) : Str :=
  ((s.dropWhile isPySpace).reverse.dropWhile isPySpace).reverse

/-- Python `' '.join(...)`. -/
def joinSpace : List Str → Str
  | [] => []
  | [s] => s
  | s :: rest => s ++ ' ' :: joinSpace rest

/-- Decode every line of a batch; the first undecodable line raises. -/
def decodeLines : List OutLine → Option (List Str)
  | [] => some []
  | none :: _ => none
  | some s :: rest => (decodeLines rest).map (fun ls => s :: ls)

/-- One iteration's scanned buffer:
`' '.join([i.decode("utf-8").strip() for i in totext.stdout.readlines()])`. -/
def readBatch (b : List OutLine) : Except PyErr Str :=
  match decodeLines b with
  | none => .error .unicodeDecodeError
  | some lines => .ok (joinSpace (lines.map pyStrip))

/-- The polling loop of `find_identifiers`: while the process has not
exited, build this iteration's buffer and run `extract_from_text` for each
registered scheme against it; on a hit, terminate the process and return
the scheme with the first identifier found; once every batch is consumed
(the process exited), return the `(None, None)` sentinel (modelled as
`none`). -/
def runScan : List (List OutLine) → Except PyErr (Option (Scheme × Str))
  | [] => .ok none
  | b :: rest =>
    match readBatch b with
    | .error e => .error e
    | .ok buf =>
      match extract_from_text buf with
      | [] => runScan rest
      | found :: _ => .ok (some (.doi, found))

/-- `find_identifiers(src)`: dispatch on the filename suffix (`.pdf` spawns
`pdftotext`, `.djvu` spawns `djvutxt`, anything else returns the sentinel
without spawning), then run the polling loop on the spawned process's
behaviour. -/
def find_identifiers (src : Str) (p : ProcBehavior) :
    Except PyErr (Option (Scheme × Str)) :=
  if (".pdf").toList.isSuffixOf src || (".djvu").toList.isSuffixOf src then
    if p.spawnOk then runScan p.batches else .error .fileNotFound
  else .ok none

/-- The successive buffers the loop scans (stopping after a hit or a decode
error): what the scan at each iteration actually sees. -/
def buffersScanned : List (List OutLine) → List Str
  | [] => []
  | b :: rest =>
    match readBatch b with
    | .error _ => []
    | .ok buf =>
      match extract_from_text buf with
      | [] => buf :: buffersScanned rest
      | _ :: _ => [buf]

/-- A batch whose buffer builds and yields no identifier. -/
def noHit (b : List OutLine) : Bool :=
  match readBatch b with
  | .error _ => false
  | .ok buf => (extract_from_text buf).isEmpty

theorem runScan_through : ∀ (pre : List (List OutLine)) (b : List OutLine)
    (rest : List (List OutLine)) (buf m : Str) (ms : List Str),
    (∀ x ∈ pre, noHit x = true) → readBatch b = .ok buf →
    extract_from_text buf = m :: ms →
    runScan (pre ++ b :: rest) = .ok (some (.doi, m)) := by
  intro pre
  induction pre with
  | nil =>
    intro b rest buf m ms hpre hb hm
    rw [List.nil_append, runScan, hb]
    simp [hm]
  | cons x pre ih =>
    intro b rest buf m ms hpre hb hm
    have hx := hpre x (by simp)
    rw [noHit] at hx
    rw [List.cons_append, runScan]
    cases hrb : readBatch x with
    | error e =>
      rw [hrb] at hx
      exact Bool.noConfusion hx
    | ok bufx =>
      rw [hrb] at hx
      have hempty : extract_from_text bufx = [] := List.isEmpty_iff.mp hx
      simp only [hempty]
      exact ih b rest buf m ms (fun y hy => hpre y (by simp [hy])) hb hm

/-! ### A space-free string cannot straddle the single-space join -/

theorem prefix_drop_seg : ∀ (m xs ys : Str) (c : Char),
    m <+: (xs ++ c :: ys) → c ∉ m → m <+: xs := by
  intro m
  induction m with
  | nil =>
    intro xs ys c h hc
    exact List.nil_prefix
  | cons a m ih =>
    intro xs ys c h hc
    cases xs with
    | nil =>
      rw [List.nil_append, List.cons_prefix_cons] at h
      exact absurd (h.1 ▸ List.mem_cons_self a m) (by rw [h.1] at hc; exact hc)
    | cons x xs =>
      rw [List.cons_append, List.cons_prefix_cons] at h
      rw [h.1, List.cons_prefix_cons]
      refine ⟨rfl, ih xs ys c h.2 (fun hmem => hc (List.mem_cons_of_mem a hmem))⟩

theorem infix_split : ∀ (xs : Str) (m ys : Str) (c : Char), c ∉ m →
    m <:+: (xs ++ c :: ys) → m <:+: xs ∨ m <:+: ys := by
  intro xs
  induction xs with
  | nil =>
    intro m ys c hc h
    rw [List.nil_append, List.infix_cons_iff] at h
    rcases h with h | h
    · cases m with
      | nil => exact Or.inl List.nil_infix
      | cons a m2 =>
        rw [List.cons_prefix_cons] at h
        exact absurd (h.1 ▸ List.mem_cons_self a m2) (by rw [h.1] at hc; exact hc)
    · exact Or.inr h
  | cons x xs ih =>
    intro m ys c hc h
    rw [List.cons_append, List.infix_cons_iff] at h
    rcases h with h | h
    · rw [← List.cons_append] at h
      exact Or.inl (prefix_drop_seg m (x :: xs) ys c h hc).isInfix
    · rcases ih m ys c hc h with h2 | h2
      · obtain ⟨s, t, hst⟩ := h2
        exact Or.inl ⟨x :: s, t, by rw [← hst]; simp⟩
      · exact Or.inr h2

/-- Claim C2: contrary to the claim, `find_identifiers` does raise for some
failure modes of the conversion process: a spawn failure (missing
executable) propagates `FileNotFoundError` from `subprocess.Popen`, and an
undecodable output line propagates `UnicodeDecodeError` from
`bytes.decode` — neither resolves to the `(None, None)` sentinel.  The
function's own docstring promises `(None, None)` when an error occurred. -/
theorem C2_code_raises :
    find_identifiers (("a.pdf").toList) ⟨false, []⟩ = .error .fileNotFound ∧
    find_identifiers (("a.pdf").toList) ⟨true, [[none]]⟩
      = .error .unicodeDecodeError ∧
    find_identifiers (("a.pdf").toList) ⟨true, [[some ("junk").toList], []]⟩
      = .ok none := by
  decide

/-- Claim C6, counterexample: with two poll iterations whose outputs are
the lines `wide` then `area`, the loop scans the buffer `wide` and then the
buffer `area` — the second scanned buffer is not `wide area`, the
accumulation of all output produced so far, because `readlines()` consumes
the lines it returns. -/
theorem C6_counterexample :
    buffersScanned [[some (("wide").toList)], [some (("area").toList)]]
      = [("wide").toList, ("area").toList] ∧
    ("area").toList ≠ ("wide area").toList := by
  decide

/-- Claim C6, amended: on each read iteration the scan runs over a buffer
built from the lines read in that iteration only (earlier output has been
consumed and is not re-scanned); an identifier whose converted text appears
only in a later iteration's output is still found, and is returned without
the remaining batches — the rest of the document's conversion — being
consumed. -/
theorem C6_amended_streaming (src : Str) (pre : List (List OutLine))
    (b : List OutLine) (rest : List (List OutLine)) (buf m : Str) (ms : List Str)
    (hsrc : (".pdf").toList.isSuffixOf src = true)
    (hpre : ∀ x ∈ pre, noHit x = true)
    (hb : readBatch b = .ok buf)
    (hm : extract_from_text buf = m :: ms) :
    find_identifiers src ⟨true, pre ++ b :: rest⟩ = .ok (some (.doi, m)) := by
  rw [find_identifiers]
  rw [if_pos (by rw [hsrc]; rfl)]
  exact runScan_through pre b rest buf m ms hpre hb hm

/-- Witness for C6's amended theorem: the identifier appears only in the
second of three increments and is found; the third increment is never
needed. -/
theorem C6_amended_streaming_witness :
    (".pdf").toList.isSuffixOf (("doc.pdf").toList) = true ∧
    (∀ x ∈ [[some (("intro page").toList)]], noHit x = true) ∧
    readBatch [some (("see 10.1234/ab ok").toList)]
      = .ok (("see 10.1234/ab ok").toList) ∧
    extract_from_text (("see 10.1234/ab ok").toList)
      = [("10.1234/ab").toList] ∧
    find_identifiers (("doc.pdf").toList)
        ⟨true, [[some (("intro page").toList)]] ++
          [some (("see 10.1234/ab ok").toList)] :: [[some (("10.9999/zz").toList)]]⟩
      = .ok (some (.doi, ("10.1234/ab").toList)) :=
  ⟨by decide, by decide, by decide, by decide,
    C6_amended_streaming (("doc.pdf").toList) [[some (("intro page").toList)]]
      [some (("see 10.1234/ab ok").toList)] [[some (("10.9999/zz").toList)]]
      (("see 10.1234/ab ok").toList) (("10.1234/ab").toList) []
      (by decide) (by decide) (by decide) (by decide)⟩

/-- Claim C9: for every source path whose name ends neither in `.pdf` nor
in `.djvu`, `find_identifiers` returns the `(None, None)` sentinel, and the
result does not depend on any process behaviour — no process is spawned. -/
theorem C9_unsupported (src : Str) (p q : ProcBehavior)
    (h1 : (".pdf").toList.isSuffixOf src = false)
    (h2 : (".djvu").toList.isSuffixOf src = false) :
    find_identifiers src p = .ok none ∧
    find_identifiers src p = find_identifiers src q := by
  have hcond : ((".pdf").toList.isSuffixOf src
      || (".djvu").toList.isSuffixOf src) = false := by
    rw [h1, h2]
    rfl
  rw [find_identifiers, find_identifiers, hcond]
  exact ⟨rfl, rfl⟩

/-- Witness for C9: a `.txt` source returns the sentinel whatever the
process behaviour would have been. -/
theorem C9_unsupported_witness :
    (".pdf").toList.isSuffixOf (("file.txt").toList) = false ∧
    (".djvu").toList.isSuffixOf (("file.txt").toList) = false ∧
    (find_identifiers (("file.txt").toList) ⟨true, [[some (("10.1234/ab").toList)]]⟩
        = .ok none ∧
      find_identifiers (("file.txt").toList) ⟨true, [[some (("10.1234/ab").toList)]]⟩
        = find_identifiers (("file.txt").toList) ⟨false, []⟩) :=
  ⟨by decide, by decide,
    C9_unsupported (("file.txt").toList) ⟨true, [[some (("10.1234/ab").toList)]]⟩
      ⟨false, []⟩ (by decide) (by decide)⟩

/-- Claim C10: the buffer scanned in one loop iteration is built by
decoding each line, stripping it, and joining the lines with a single
space; consequently an identifier whose characters are split across two
adjacent output lines never occurs in the scanned buffer (a valid DOI
contains no space) and is not found. -/
theorem C10_split_identifier (l1 l2 m : Str) (hv : is_valid m = true)
    (h1 : ¬ m <:+: pyStrip l1) (h2 : ¬ m <:+: pyStrip l2) :
    readBatch [some l1, some l2] = .ok (pyStrip l1 ++ ' ' :: pyStrip l2) ∧
    ¬ m <:+: (pyStrip l1 ++ ' ' :: pyStrip l2) ∧
    m ∉ extract_from_text (pyStrip l1 ++ ' ' :: pyStrip l2) ∧
    ∀ src : Str,
      find_identifiers src ⟨true, [[some l1, some l2]]⟩ ≠ .ok (some (.doi, m)) := by
  have hspace : ' ' ∉ m := matchCore_space_free (is_valid_matchCore hv)
  have hread : readBatch [some l1, some l2]
      = .ok (pyStrip l1 ++ ' ' :: pyStrip l2) := by
    rw [readBatch]
    simp [decodeLines, joinSpace]
  have hninf : ¬ m <:+: (pyStrip l1 ++ ' ' :: pyStrip l2) := by
    intro hinf
    rcases infix_split (pyStrip l1) m (pyStrip l2) ' ' hspace hinf with h | h
    · exact h1 h
    · exact h2 h
  have hnmem : m ∉ extract_from_text (pyStrip l1 ++ ' ' :: pyStrip l2) := by
    intro hmem
    exact hninf (scanAllF_isInfix _ none _ m
      ((remove_duplicates_mem _ _).mp hmem))
  refine ⟨hread, hninf, hnmem, ?_⟩
  intro src heq
  rw [find_identifiers] at heq
  split at heq
  · simp only at heq
    rw [runScan, hread] at heq
    simp only at heq
    cases hx : extract_from_text (pyStrip l1 ++ ' ' :: pyStrip l2) with
    | nil =>
      rw [hx] at heq
      simp only [runScan] at heq
      cases heq
    | cons f fs =>
      rw [hx] at heq
      rw [if_pos trivial] at heq
      simp only [Except.ok.injEq, Option.some.injEq, Prod.mk.injEq, true_and] at heq
      rw [← heq] at hnmem
      exact hnmem (hx ▸ List.mem_cons_self f fs)
  · cases heq

/-- Witness for C10: the DOI `10.1234/ab` split as `10.1234/a` + `b` over
two lines is never seen and never returned. -/
theorem C10_split_identifier_witness :
    is_valid (("10.1234/ab").toList) = true ∧
    ¬ ("10.1234/ab").toList <:+: pyStrip (("10.1234/a").toList) ∧
    ¬ ("10.1234/ab").toList <:+: pyStrip (("b").toList) ∧
    (readBatch [some (("10.1234/a").toList), some (("b").toList)]
        = .ok (pyStrip (("10.1234/a").toList) ++ ' ' :: pyStrip (("b").toList)) ∧
      ¬ ("10.1234/ab").toList <:+:
        (pyStrip (("10.1234/a").toList) ++ ' ' :: pyStrip (("b").toList)) ∧
      ("10.1234/ab").toList ∉ extract_from_text
        (pyStrip (("10.1234/a").toList) ++ ' ' :: pyStrip (("b").toList)) ∧
      ∀ src : Str,
        find_identifiers src ⟨true, [[some (("10.1234/a").toList), some (("b").toList)]]⟩
          ≠ .ok (some (.doi, ("10.1234/ab").toList))) :=
  ⟨by decide, by decide, by decide,
    C10_split_identifier (("10.1234/a").toList) (("b").toList)
      (("10.1234/ab").toList) (by decide) (by decide) (by decide)⟩

example : is_valid ("10.1209/0295-5075/111/40005").toList = true := by decide
example : is_valid ("10.1016.12.31/nature.S0735-1097(98)2000/12/31/34:7-7").toList = true := by
  decide
example : is_valid ("10.1007.10/978-3-642-28108-2_19").toList = true := by decide
example : is_valid ("10.1016/S0735-1097(98)00347-7").toList = true := by decide
example : is_valid ("<geo coords=\"10.4515260,51.1656910\"></geo>").toList = false := by decide
example :
    extract_from_text ("see 10.1209/0295-5075/111/40005 and <geo coords=\"10.4515260,51.1656910\"></geo>").toList
      = [("10.1209/0295-5075/111/40005").toList] := by decide

end LibBMC
